import Mathlib

/-!
Verification development for the OMFS Proposal System content core
(`backend/app/api/content.py` together with the data model in
`backend/app/models/content.py`).

The durable store is modelled as an explicit state (`DB`): lists of tag
rows, content-block rows (each carrying its `content_block_tags`
association ids) and version rows, plus the autoincrement counters.
Each API handler of `content.py` becomes a pure function on `DB`;
handlers that can raise `HTTPException` return `Except ApiError`.

Fields of the rows that none of the verified properties interact with
(timestamps, `word_count`, `estimated_pages`, `quality_rating`,
hierarchy and source-tracking columns) are omitted; `updated_at`
ordering of the block listing is likewise not modelled, as it only
permutes the already-filtered row set.
-/

namespace OMFS

/-- A row of the `tags` table.  `usage_count` is an `Int` (a Python
int); the code's `(tag.usage_count or 0)` null-coalescing is the
identity here since every row is created with the column default 0. -/
structure Tag where
  id : Nat
  name : String
  category : Option String
  color : Option String
  usage_count : Int
deriving Repr, DecidableEq

/-- A row of the `content_blocks` table; `tagIds` is this block's side
of the `content_block_tags` association table. -/
structure ContentBlock where
  id : Nat
  title : String
  content : String
  section_type : String
  context_metadata : Option String
  tagIds : List Nat
  is_deleted : Bool
deriving Repr, DecidableEq

/-- A row of the `content_versions` table. -/
structure ContentVersion where
  id : Nat
  content_block_id : Nat
  version_number : Nat
  title : String
  content : String
  context_metadata : Option String
  change_description : String
deriving Repr, DecidableEq

/-- The durable store: table contents plus autoincrement counters. -/
structure DB where
  blocks : List ContentBlock
  tags : List Tag
  versions : List ContentVersion
  nextBlockId : Nat
  nextTagId : Nat
  nextVersionId : Nat
deriving Repr, DecidableEq

def DB.empty : DB := ⟨[], [], [], 1, 1, 1⟩

/-- The error taxonomy surfaced by the handlers (`HTTPException`
status codes 404 and 400). -/
inductive ApiError where
  | notFound
  | badRequest
deriving Repr, DecidableEq

/-- The rows of `block.versions` (the ORM relationship): all version
rows whose `content_block_id` is this block's id. -/
def blockVersions (db : DB) (bid : Nat) : List ContentVersion :=
  db.versions.filter (fun v => v.content_block_id == bid)

/-- The number of live (non-soft-deleted) blocks currently associated
with the tag id: the ground truth that `usage_count` caches. -/
def liveUsage (db : DB) (tagId : Nat) : Nat :=
  (db.blocks.filter (fun b => !b.is_deleted && b.tagIds.contains tagId)).length

/-- GET `/blocks` (`get_content_blocks`): filters out soft-deleted
rows, then paginates.  The `section_type`/`query`/`tags` search
filters and the `updated_at` ordering are not modelled: they only
restrict or permute the filtered row set. -/
def get_content_blocks (db : DB) (page limit : Nat) : List ContentBlock :=
  let filtered := db.blocks.filter (fun b => !b.is_deleted)
  (filtered.drop ((page - 1) * limit)).take limit

/-- GET `/blocks/{id}` (`get_content_block`): looks the block up with
both the id and the `is_deleted == False` filter. -/
def get_content_block (db : DB) (block_id : Nat) : Except ApiError ContentBlock :=
  match db.blocks.find? (fun b => b.id == block_id && !b.is_deleted) with
  | some b => .ok b
  | none => .error .notFound

/-- Request body of POST `/blocks` (`ContentBlockCreate`). -/
structure ContentBlockCreate where
  title : String
  content : String
  section_type : String
  context_metadata : Option String
  tag_ids : List Nat
deriving Repr, DecidableEq

/-- POST `/blocks` (`create_content_block`): inserts the block, wires
its tag associations to the tag rows whose ids occur in `tag_ids`, and
increments `usage_count` for each such row.  (The source guards the
tag work with `if tag_ids:`; with an empty list the filter below
matches no row, so the guard is dropped without change of meaning.) -/
def createdBlock (db : DB) (d : ContentBlockCreate) : ContentBlock :=
  { id := db.nextBlockId
    title := d.title
    content := d.content
    section_type := d.section_type
    context_metadata := d.context_metadata
    tagIds := (db.tags.filter (fun t => d.tag_ids.contains t.id)).map (fun t => t.id)
    is_deleted := false }

def create_content_block (db : DB) (d : ContentBlockCreate) : DB × ContentBlock :=
  ({ db with blocks := db.blocks ++ [createdBlock db d]
             tags := db.tags.map (fun t =>
               if d.tag_ids.contains t.id then { t with usage_count := t.usage_count + 1 }
               else t)
             nextBlockId := db.nextBlockId + 1 }, createdBlock db d)

/-- Request body of PUT `/blocks/{id}` (`ContentBlockUpdate`): every
field optional, `none` meaning absent from the sparse update
(pydantic `exclude_unset`). -/
structure ContentBlockUpdate where
  title : Option String
  content : Option String
  section_type : Option String
  context_metadata : Option (Option String)
  tag_ids : Option (List Nat)
deriving Repr, DecidableEq

/-- The empty sparse update. -/
def ContentBlockUpdate.none : ContentBlockUpdate := ⟨.none, .none, .none, .none, .none⟩

/-- The `setattr` loop of `update_content_block`: overwrite exactly
the supplied fields. -/
def applyFieldUpdates (b : ContentBlock) (u : ContentBlockUpdate) : ContentBlock :=
  { b with
    title := u.title.getD b.title
    content := u.content.getD b.content
    section_type := u.section_type.getD b.section_type
    context_metadata := u.context_metadata.getD b.context_metadata }

/-- The version snapshot row both mutating handlers insert before
touching the block: `version_number = len(block.versions) + 1` and
the captured fields read from the block's current state. -/
def snapshotOf (db : DB) (block : ContentBlock) (descr : String) : ContentVersion :=
  { id := db.nextVersionId
    content_block_id := block.id
    version_number := (blockVersions db block.id).length + 1
    title := block.title
    content := block.content
    context_metadata := block.context_metadata
    change_description := descr }

/-- PUT `/blocks/{id}` (`update_content_block`): 404 unless a live row
matches; then (1) insert a version snapshot of the pre-update state
with `version_number = len(block.versions) + 1`, (2) apply the sparse
field updates, (3) if `tag_ids` was supplied, diff old/new tag id
sets, decrement `usage_count` (clamped at 0) for removed tags,
increment it for added tags, and rewire the associations to the
existing tag rows named by the new list. -/
def update_content_block (db : DB) (block_id : Nat) (u : ContentBlockUpdate) :
    Except ApiError (DB × ContentBlock) :=
  match db.blocks.find? (fun b => b.id == block_id && !b.is_deleted) with
  | none => .error .notFound
  | some block =>
    let version := snapshotOf db block "Auto-saved version before update"
    let block1 := applyFieldUpdates block u
    let (tags', assoc') : List Tag × List Nat :=
      match u.tag_ids with
      | .none => (db.tags, block.tagIds)
      | .some newIds =>
        let oldIds := block.tagIds
        let removed := oldIds.filter (fun i => !newIds.contains i)
        let added := newIds.filter (fun i => !oldIds.contains i)
        let tags' := db.tags.map (fun t =>
          if removed.contains t.id then { t with usage_count := max 0 (t.usage_count - 1) }
          else if added.contains t.id then { t with usage_count := t.usage_count + 1 }
          else t)
        let assoc' := (db.tags.filter (fun t => newIds.contains t.id)).map (fun t => t.id)
        (tags', assoc')
    let block2 := { block1 with tagIds := assoc' }
    .ok ({ db with
            blocks := db.blocks.map (fun b => if b.id == block_id then block2 else b)
            tags := tags'
            versions := db.versions ++ [version]
            nextVersionId := db.nextVersionId + 1 }, block2)

/-- DELETE `/blocks/{id}` (`delete_content_block`): looks the block up
with the id alone (no `is_deleted` filter), decrements `usage_count`
(clamped at 0) for every associated tag, and sets the soft-delete
flag. -/
def delete_content_block (db : DB) (block_id : Nat) : Except ApiError DB :=
  match db.blocks.find? (fun b => b.id == block_id) with
  | none => .error .notFound
  | some block =>
    let tags' := db.tags.map (fun t =>
      if block.tagIds.contains t.id then { t with usage_count := max 0 (t.usage_count - 1) }
      else t)
    .ok { db with
            tags := tags'
            blocks := db.blocks.map (fun b =>
              if b.id == block_id then { b with is_deleted := true } else b) }

/-- POST `/tags` (`create_tag`): 400 when the name already exists,
otherwise inserts the tag row (with the `usage_count` column default
0). -/
def create_tag (db : DB) (name : String) (category color : Option String) :
    Except ApiError (DB × Tag) :=
  if db.tags.any (fun t => t.name == name) then .error .badRequest
  else
    let t : Tag := { id := db.nextTagId, name := name, category := category,
                     color := color, usage_count := 0 }
    .ok ({ db with tags := db.tags ++ [t], nextTagId := db.nextTagId + 1 }, t)

/-- GET `/tags` (`get_tags`): recomputes each tag's `usage_count` as
the junction-table count restricted to non-deleted blocks, then sorts
by that count descending (Python's stable `list.sort` with
`reverse=True`). -/
def get_tags (db : DB) : List Tag :=
  let recomputed := db.tags.map (fun t => { t with usage_count := (liveUsage db t.id : Int) })
  recomputed.mergeSort (fun a b => b.usage_count ≤ a.usage_count)

/-- GET `/blocks/{id}/versions` (`get_content_versions`): the block
lookup uses the id alone (no `is_deleted` filter); the versions are
returned ordered by `version_number` descending. -/
def get_content_versions (db : DB) (block_id : Nat) :
    Except ApiError (List ContentVersion) :=
  match db.blocks.find? (fun b => b.id == block_id) with
  | none => .error .notFound
  | some _ =>
    .ok ((blockVersions db block_id).mergeSort
      (fun a b => b.version_number ≤ a.version_number))

/-- POST `/blocks/{id}/versions/{vid}/revert` (`revert_to_version`):
404 if the block id matches no row, or the version id does not match
a version row of this block; otherwise snapshot the current state
(again with `version_number = len(block.versions) + 1` and an
auto-generated description naming the target), then overwrite
title/content/context_metadata from the target version. -/
def revert_to_version (db : DB) (block_id version_id : Nat) :
    Except ApiError (DB × ContentBlock) :=
  match db.blocks.find? (fun b => b.id == block_id) with
  | none => .error .notFound
  | some block =>
    match db.versions.find? (fun v => v.id == version_id && v.content_block_id == block_id) with
    | none => .error .notFound
    | some version =>
      let new_version := snapshotOf db block
        ("Auto-saved before reverting to version " ++ toString version.version_number)
      let block' := { block with
        title := version.title
        content := version.content
        context_metadata := version.context_metadata }
      .ok ({ db with
              blocks := db.blocks.map (fun b => if b.id == block_id then block' else b)
              versions := db.versions ++ [new_version]
              nextVersionId := db.nextVersionId + 1 }, block')

/-!
Run wrappers: each fallible handler as a total state transformer that
leaves the store unchanged when the handler raises.  The reachability
relation below is built from these.
-/

/-- The state reached by POST `/tags`, the store unchanged on error. -/
def create_tag_run (db : DB) (name : String) (category color : Option String) : DB :=
  match create_tag db name category color with
  | .ok (db', _) => db'
  | .error _ => db

/-- The state reached by PUT `/blocks/{id}`, the store unchanged on error. -/
def update_run (db : DB) (block_id : Nat) (u : ContentBlockUpdate) : DB :=
  match update_content_block db block_id u with
  | .ok (db', _) => db'
  | .error _ => db

/-- The state reached by DELETE `/blocks/{id}`, the store unchanged on error. -/
def delete_run (db : DB) (block_id : Nat) : DB :=
  match delete_content_block db block_id with
  | .ok db' => db'
  | .error _ => db

/-- The state reached by the revert endpoint, the store unchanged on error. -/
def revert_run (db : DB) (block_id version_id : Nat) : DB :=
  match revert_to_version db block_id version_id with
  | .ok (db', _) => db'
  | .error _ => db

/-- Every store reachable from the empty store by a sequence of the
mutating operations of the content core (tag create, block create,
block update, block soft-delete, revert); the read endpoints do not
change the durable store. -/
inductive Reachable : DB → Prop where
  | init : Reachable DB.empty
  | createTag {db} (name : String) (category color : Option String) :
      Reachable db → Reachable (create_tag_run db name category color)
  | createBlock {db} (d : ContentBlockCreate) :
      Reachable db → Reachable (create_content_block db d).1
  | update {db} (block_id : Nat) (u : ContentBlockUpdate) :
      Reachable db → Reachable (update_run db block_id u)
  | delete {db} (block_id : Nat) :
      Reachable db → Reachable (delete_run db block_id)
  | revert {db} (block_id version_id : Nat) :
      Reachable db → Reachable (revert_run db block_id version_id)

/-- Reachability restricted to well-behaved clients: identical to
`Reachable` except that the soft-delete step is only taken when no row
carrying the target id is already soft-deleted (the handler itself
does not check this). -/
inductive ReachableNoDoubleDelete : DB → Prop where
  | init : ReachableNoDoubleDelete DB.empty
  | createTag {db} (name : String) (category color : Option String) :
      ReachableNoDoubleDelete db →
      ReachableNoDoubleDelete (create_tag_run db name category color)
  | createBlock {db} (d : ContentBlockCreate) :
      ReachableNoDoubleDelete db →
      ReachableNoDoubleDelete (create_content_block db d).1
  | update {db} (block_id : Nat) (u : ContentBlockUpdate) :
      ReachableNoDoubleDelete db →
      ReachableNoDoubleDelete (update_run db block_id u)
  | delete {db} (block_id : Nat) :
      (∀ b ∈ db.blocks, b.id = block_id → b.is_deleted = false) →
      ReachableNoDoubleDelete db →
      ReachableNoDoubleDelete (delete_run db block_id)
  | revert {db} (block_id version_id : Nat) :
      ReachableNoDoubleDelete db →
      ReachableNoDoubleDelete (revert_run db block_id version_id)

/-!
Track-Change Engine.  The repository's migrations declare the
`track_changes_enabled` and `tracked_changes_metadata` columns, but no
resolution code ships under `src/`; the engine below is modelled from
the spec (§4.2 and §6).
-/

/-- Modelled from the spec: one ledger entry (`ChangeRecord`), the
engine reading only `id` and `status`; `kind` is the change-kind
attribute also mirrored in the body markers. -/
structure ChangeRecord where
  id : String
  kind : String
  status : String
deriving Repr, DecidableEq

/-- Modelled from the spec: the rich-text body as a tree of markup
nodes (text leaves and elements with an attribute list). -/
inductive HtmlNode where
  | text : String → HtmlNode
  | elem : String → List (String × String) → List HtmlNode → HtmlNode
deriving Repr

/-- Attribute lookup on an element's attribute list. -/
def attrValue (attrs : List (String × String)) (key : String) : Option String :=
  (attrs.find? (fun p => p.fst == key)).map (fun p => p.snd)

/-- Modelled from the spec: a marker node is an element carrying a
change-id attribute and a change-kind attribute whose value is
`insert` or `delete`. -/
def markerInfo (attrs : List (String × String)) : Option (String × String) :=
  match attrValue attrs "data-change-id", attrValue attrs "data-change-type" with
  | some cid, some kind =>
    if kind == "insert" || kind == "delete" then some (cid, kind) else none
  | _, _ => none

mutual

/-- Modelled from the spec: rewrite one node for the change ids being
resolved.  A marker whose change id is among them is unwrapped (its
rewritten children spliced in place) when the resolution keeps the
text — accepting an `insert` or rejecting a `delete` — and removed
together with its content otherwise; every other node is kept with
its children rewritten. -/
def resolveNode (ids : List String) (act : String) : HtmlNode → List HtmlNode
  | .text s => [.text s]
  | .elem tag attrs children =>
    let kids := resolveForest ids act children
    match markerInfo attrs with
    | some (cid, kind) =>
      if ids.contains cid then
        if (kind == "insert") == (act == "accept") then kids else []
      else [.elem tag attrs kids]
    | none => [.elem tag attrs kids]

/-- Modelled from the spec: rewrite a list of sibling nodes. -/
def resolveForest (ids : List String) (act : String) : List HtmlNode → List HtmlNode
  | [] => []
  | n :: rest => resolveNode ids act n ++ resolveForest ids act rest

end

/-- Serialization of an attribute list back to markup. -/
def serializeAttrs : List (String × String) → String
  | [] => ""
  | (k, v) :: rest => " " ++ k ++ "=\"" ++ v ++ "\"" ++ serializeAttrs rest

mutual

/-- Serialization of the body tree back to markup, the pure final
step of a resolution pass. -/
def serializeNode : HtmlNode → String
  | .text s => s
  | .elem tag attrs kids =>
    "<" ++ tag ++ serializeAttrs attrs ++ ">" ++ serializeForest kids ++ "</" ++ tag ++ ">"

/-- Serialization of a list of sibling nodes. -/
def serializeForest : List HtmlNode → String
  | [] => ""
  | n :: rest => serializeNode n ++ serializeForest rest

end

/-- Modelled from the spec: the ids of the requested changes that are
actually processed — those found in the ledger with status
`pending`; ids absent from the ledger or already resolved are
silently skipped. -/
def processedIds (ledger : List ChangeRecord) (changeIds : List String) : List String :=
  (ledger.filter (fun r => r.status == "pending" && changeIds.contains r.id)).map
    (fun r => r.id)

/-- Modelled from the spec: mark each processed ledger entry with the
resolution outcome, then retain only the entries still `pending`. -/
def resolveLedger (ledger : List ChangeRecord) (changeIds : List String)
    (act : String) : List ChangeRecord :=
  (ledger.map (fun r =>
    if changeIds.contains r.id && r.status == "pending" then
      { r with status := if act == "accept" then "accepted" else "rejected" }
    else r)).filter (fun r => r.status == "pending")

/-- Modelled from the spec: `resolve(block, changeIds, action)` —
`InvalidArgument` unless the action is `accept` or `reject`; otherwise
rewrite every marker of each processed change id, serialize the body
back to markup, and return it with the pruned ledger. -/
def resolve (body : List HtmlNode) (ledger : List ChangeRecord)
    (changeIds : List String) (act : String) :
    Except ApiError (String × List ChangeRecord) :=
  if act == "accept" || act == "reject" then
    .ok (serializeForest (resolveForest (processedIds ledger changeIds) act body),
         resolveLedger ledger changeIds act)
  else .error .badRequest

/-!
Concrete stores used by witnesses and counterexamples.
-/

/-- A store built by the operations themselves: tag `A`, then two
blocks both associated with it. -/
def dbTagA : DB := create_tag_run DB.empty "A" .none .none

/-- The store after creating the first block, associated with tag 1. -/
def dbOneBlock : DB := (create_content_block dbTagA ⟨"t1", "c1", "s", .none, [1]⟩).1

/-- The store after creating a second block, also associated with tag 1. -/
def dbTwoBlocks : DB := (create_content_block dbOneBlock ⟨"t2", "c2", "s", .none, [1]⟩).1

/-- The store after soft-deleting block 1 once. -/
def dbAfterDelete : DB := delete_run dbTwoBlocks 1

/-- The store after soft-deleting block 1 a second time. -/
def dbAfterDoubleDelete : DB := delete_run dbAfterDelete 1

/-- The store after updating block 1 twice (two snapshots exist). -/
def dbTwoUpdates : DB :=
  update_run (update_run dbOneBlock 1 ⟨some "t1b", .none, .none, .none, .none⟩) 1
    ⟨some "t1c", .none, .none, .none, .none⟩

/-- A store with a live block whose only pre-existing version carries
`version_number` 2: legal table contents, but not reachable by the
operations themselves. -/
def dbGapVersion : DB :=
  { blocks := [⟨1, "T", "C", "s", .none, [], false⟩]
    tags := []
    versions := [⟨1, 1, 2, "T0", "C0", .none, "d"⟩]
    nextBlockId := 2
    nextTagId := 1
    nextVersionId := 2 }

/-- A store whose only block is soft-deleted and owns one version. -/
def dbDeletedBlock : DB :=
  { blocks := [⟨1, "T", "C", "s", .none, [], true⟩]
    tags := []
    versions := [⟨1, 1, 1, "T0", "C0", .none, "d"⟩]
    nextBlockId := 2
    nextTagId := 1
    nextVersionId := 2 }

/-- The spec-side reading of the version-numbering rule: the maximum
existing version number for the block (0 when none exist). -/
def specMaxVersionNumber (db : DB) (bid : Nat) : Nat :=
  ((blockVersions db bid).map (fun v => v.version_number)).foldr max 0

/-- Canonical numbering: each block's version rows carry the numbers
1, 2, …, k in insertion order; the invariant behind gapless version
histories. -/
def CanonicalNumbers (vs : List ContentVersion) : Prop :=
  ∀ bid, (vs.filter (fun v => v.content_block_id == bid)).map (fun v => v.version_number)
       = List.range' 1 (vs.filter (fun v => v.content_block_id == bid)).length

/-- The store invariant maintained by well-behaved operation
sequences: primary keys are unique and below the autoincrement
counters, associations reference existing tag rows, and every tag's
cached `usage_count` equals the live association count. -/
structure StoreInv (db : DB) : Prop where
  blocksNodup : (db.blocks.map (fun b => b.id)).Nodup
  blocksLt : ∀ b ∈ db.blocks, b.id < db.nextBlockId
  tagsLt : ∀ t ∈ db.tags, t.id < db.nextTagId
  assocExists : ∀ b ∈ db.blocks, ∀ i ∈ b.tagIds, i ∈ db.tags.map (fun t => t.id)
  counts : ∀ t ∈ db.tags, t.usage_count = (liveUsage db t.id : Int)

end OMFS

namespace OMFS

/-! Helper lemmas. -/

theorem of_find?_live {db : DB} {bid : Nat} {block : ContentBlock}
    (h : db.blocks.find? (fun b => b.id == bid && !b.is_deleted) = some block) :
    block ∈ db.blocks ∧ block.id = bid ∧ block.is_deleted = false := by
  have hmem := List.mem_of_find?_eq_some h
  have hp := List.find?_some h
  simp only [Bool.and_eq_true, beq_iff_eq, Bool.not_eq_true'] at hp
  exact ⟨hmem, hp.1, hp.2⟩

theorem of_find?_any {db : DB} {bid : Nat} {block : ContentBlock}
    (h : db.blocks.find? (fun b => b.id == bid) = some block) :
    block ∈ db.blocks ∧ block.id = bid := by
  have hmem := List.mem_of_find?_eq_some h
  have hp := List.find?_some h
  simp only [beq_iff_eq] at hp
  exact ⟨hmem, hp⟩

theorem contains_filter_not (L M : List Nat) (x : Nat) :
    ((L.filter (fun i => !M.contains i)).contains x = true) ↔ (x ∈ L ∧ x ∉ M) := by
  simp [List.mem_filter]

theorem contains_true_of_mem (L : List Nat) (x : Nat) (h : x ∈ L) :
    L.contains x = true := by
  simpa using h

theorem contains_false_of_not_mem (L : List Nat) (x : Nat) (h : x ∉ L) :
    L.contains x = false := by
  rw [Bool.eq_false_iff]
  intro hc
  exact h (by simpa using hc)

theorem max_zero_sub_one (z : Int) (hz : 0 ≤ z) : max 0 (z + 1 - 1) = z := by
  rw [show z + 1 - 1 = z from by ring]
  exact max_eq_right hz

/-! Counting helpers for the usage-count invariant. -/

theorem length_filter_set (l : List ContentBlock) (p : ContentBlock → Bool)
    (g : ContentBlock → ContentBlock) (bid : Nat) (block : ContentBlock)
    (hnd : (l.map (fun b => b.id)).Nodup) (hmem : block ∈ l) (hid : block.id = bid) :
    ((l.map (fun x => if x.id == bid then g x else x)).filter p).length
      + (if p block then 1 else 0)
    = (l.filter p).length + (if p (g block) then 1 else 0) := by
  induction l with
  | nil => cases hmem
  | cons x xs ih =>
    simp only [List.map_cons, List.nodup_cons, List.mem_map] at hnd
    rcases List.mem_cons.mp hmem with hx | hx
    · subst hx
      have hrep : xs.map (fun y => if y.id == bid then g y else y) = xs.map id := by
        apply List.map_congr_left
        intro y hy
        have hyid : ¬(y.id == bid) = true := by
          simp only [beq_iff_eq]
          intro hc
          exact hnd.1 ⟨y, hy, by rw [hc, hid]⟩
        simp [hyid]
      rw [List.map_cons, if_pos (by simp [hid])]
      rw [hrep, List.map_id, List.filter_cons, List.filter_cons]
      by_cases hp1 : p (g block) = true <;> by_cases hp2 : p block = true <;>
        simp [hp1, hp2]
    · have hxid : ¬(x.id == bid) = true := by
        simp only [beq_iff_eq]
        intro hc
        exact hnd.1 ⟨block, hx, by rw [hid, hc]⟩
      rw [List.map_cons, if_neg hxid, List.filter_cons, List.filter_cons]
      have hrec := ih hnd.2 hx
      by_cases hp : p x = true
      · rw [if_pos hp, if_pos hp]
        simp only [List.length_cons]
        omega
      · rw [if_neg hp, if_neg hp]
        omega

theorem mem_assoc_iff (tags : List Tag) (L : List Nat) (t : Tag) (ht : t ∈ tags) :
    t.id ∈ (tags.filter (fun s => L.contains s.id)).map (fun s => s.id) ↔ t.id ∈ L := by
  constructor
  · intro hm
    obtain ⟨s, hs, hseq⟩ := List.mem_map.mp hm
    have hc := (List.mem_filter.mp hs).2
    rw [← hseq]
    simpa using hc
  · intro hm
    exact List.mem_map.mpr ⟨t, List.mem_filter.mpr ⟨ht, by simpa using hm⟩, rfl⟩

theorem map_tags_ids (tags : List Tag) (f : Tag → Tag) (h : ∀ t, (f t).id = t.id) :
    (tags.map f).map (fun t => t.id) = tags.map (fun t => t.id) := by
  rw [List.map_map]
  exact List.map_congr_left (fun t _ => h t)

theorem map_blocks_ids (l : List ContentBlock) (f : ContentBlock → ContentBlock)
    (h : ∀ b, (f b).id = b.id) :
    (l.map f).map (fun b => b.id) = l.map (fun b => b.id) := by
  rw [List.map_map]
  exact List.map_congr_left (fun b _ => h b)

theorem inv_empty : StoreInv DB.empty := by
  refine ⟨?_, ?_, ?_, ?_, ?_⟩ <;> simp [DB.empty]

theorem inv_create_tag (db : DB) (n : String) (c cl : Option String)
    (h : StoreInv db) : StoreInv (create_tag_run db n c cl) := by
  by_cases hex : db.tags.any (fun t => t.name == n) = true
  · have hrun : create_tag_run db n c cl = db := by
      simp [create_tag_run, create_tag, hex]
    rw [hrun]
    exact h
  · have hrun : create_tag_run db n c cl
        = { db with tags := db.tags ++ [⟨db.nextTagId, n, c, cl, 0⟩],
                    nextTagId := db.nextTagId + 1 } := by
      simp [create_tag_run, create_tag, hex]
    rw [hrun]
    refine ⟨h.blocksNodup, h.blocksLt, ?_, ?_, ?_⟩
    · intro t ht
      rcases List.mem_append.mp ht with h1 | h1
      · exact Nat.lt_trans (h.tagsLt t h1) (Nat.lt_succ_self _)
      · have := List.mem_singleton.mp h1
        subst this
        exact Nat.lt_succ_self _
    · intro b hb i hi
      have := h.assocExists b hb i hi
      rw [List.map_append]
      exact List.mem_append_left _ this
    · intro t ht
      rcases List.mem_append.mp ht with h1 | h1
      · exact h.counts t h1
      · have := List.mem_singleton.mp h1
        subst this
        have hzero :
            db.blocks.filter (fun b => !b.is_deleted && b.tagIds.contains db.nextTagId)
              = [] := by
          rw [List.filter_eq_nil_iff]
          intro b hb hp
          simp only [Bool.and_eq_true] at hp
          have hmem : db.nextTagId ∈ b.tagIds := by simpa using hp.2
          obtain ⟨t', ht', hteq⟩ := List.mem_map.mp (h.assocExists b hb _ hmem)
          have := h.tagsLt t' ht'
          omega
        show (0 : Int) = (liveUsage db db.nextTagId : Int)
        rw [liveUsage, hzero]
        rfl

theorem inv_create_block (db : DB) (d : ContentBlockCreate)
    (h : StoreInv db) : StoreInv (create_content_block db d).1 := by
  have hfresh : db.nextBlockId ∉ db.blocks.map (fun b => b.id) := by
    intro hc
    obtain ⟨b, hb, hbe⟩ := List.mem_map.mp hc
    have := h.blocksLt b hb
    omega
  have hids : ((db.tags.map (fun t =>
      if d.tag_ids.contains t.id then { t with usage_count := t.usage_count + 1 }
      else t)).map (fun t => t.id)) = db.tags.map (fun t => t.id) := by
    apply map_tags_ids
    intro t
    by_cases hc : d.tag_ids.contains t.id = true
    · rw [if_pos hc]
    · rw [if_neg hc]
  have hrun : (create_content_block db d).1
      = { db with blocks := db.blocks ++ [createdBlock db d]
                  tags := db.tags.map (fun t =>
                    if d.tag_ids.contains t.id then
                      { t with usage_count := t.usage_count + 1 }
                    else t)
                  nextBlockId := db.nextBlockId + 1 } := rfl
  rw [hrun]
  refine ⟨?_, ?_, ?_, ?_, ?_⟩
  · show ((db.blocks ++ [createdBlock db d]).map (fun b => b.id)).Nodup
    rw [List.map_append]
    simp [List.nodup_append, h.blocksNodup, hfresh, createdBlock]
  · intro b hb
    rcases List.mem_append.mp hb with h1 | h1
    · exact Nat.lt_trans (h.blocksLt b h1) (Nat.lt_succ_self _)
    · have := List.mem_singleton.mp h1
      subst this
      exact Nat.lt_succ_self _
  · intro t ht
    obtain ⟨t', ht', hteq⟩ := List.mem_map.mp ht
    have hlt := h.tagsLt t' ht'
    have hid : t.id = t'.id := by
      rw [← hteq]
      by_cases hc : d.tag_ids.contains t'.id = true
      · rw [if_pos hc]
      · rw [if_neg hc]
    show t.id < db.nextTagId
    omega
  · intro b hb i hi
    show i ∈ _
    rw [hids]
    rcases List.mem_append.mp hb with h1 | h1
    · exact h.assocExists b h1 i hi
    · have := List.mem_singleton.mp h1
      subst this
      obtain ⟨t', ht', hteq⟩ := List.mem_map.mp hi
      exact hteq ▸ List.mem_map.mpr ⟨t', (List.mem_filter.mp ht').1, rfl⟩
  · intro t ht
    obtain ⟨t', ht', hteq⟩ := List.mem_map.mp ht
    subst hteq
    have hcount := h.counts t' ht'
    have hid : (if d.tag_ids.contains t'.id = true then
        ({ t' with usage_count := t'.usage_count + 1 } : Tag) else t').id = t'.id := by
      by_cases hc : d.tag_ids.contains t'.id = true
      · rw [if_pos hc]
      · rw [if_neg hc]
    show _ = ((List.filter
        (fun b => !b.is_deleted && b.tagIds.contains
          (if d.tag_ids.contains t'.id = true then
            ({ t' with usage_count := t'.usage_count + 1 } : Tag) else t').id)
        (db.blocks ++ [createdBlock db d])).length : Int)
    rw [hid, List.filter_append, List.length_append]
    by_cases hc : d.tag_ids.contains t'.id = true
    · have hm : t'.id ∈ (createdBlock db d).tagIds :=
        (mem_assoc_iff db.tags d.tag_ids t' ht').mpr (by simpa using hc)
      have hone : (List.filter
          (fun b => !b.is_deleted && b.tagIds.contains t'.id)
          [createdBlock db d]).length = 1 := by
        have : (!(createdBlock db d).is_deleted
            && (createdBlock db d).tagIds.contains t'.id) = true := by
          simp only [createdBlock, Bool.not_false, Bool.true_and]
          simpa [createdBlock] using hm
        rw [List.filter_cons, if_pos this]
        rfl
      rw [if_pos hc, hone]
      show t'.usage_count + 1 = _
      rw [hcount, liveUsage]
      push_cast
      ring
    · have hm : t'.id ∉ (createdBlock db d).tagIds := by
        intro hmm
        exact hc (by simpa using (mem_assoc_iff db.tags d.tag_ids t' ht').mp hmm)
      have hzero : (List.filter
          (fun b => !b.is_deleted && b.tagIds.contains t'.id)
          [createdBlock db d]).length = 0 := by
        have : (!(createdBlock db d).is_deleted
            && (createdBlock db d).tagIds.contains t'.id) = false := by
          simp only [createdBlock, Bool.not_false, Bool.true_and]
          simpa [createdBlock] using hm
        rw [List.filter_cons,
          if_neg (fun hmm => Bool.false_ne_true (this ▸ hmm))]
        rfl
      rw [if_neg hc, hzero]
      rw [hcount, liveUsage]
      push_cast
      ring

theorem inv_update (db : DB) (bid : Nat) (u : ContentBlockUpdate)
    (h : StoreInv db) : StoreInv (update_run db bid u) := by
  cases hf : db.blocks.find? (fun b => b.id == bid && !b.is_deleted) with
  | none =>
    have hrun : update_run db bid u = db := by
      simp [update_run, update_content_block, hf]
    rw [hrun]
    exact h
  | some block =>
    obtain ⟨hmem, hid, hlive⟩ := of_find?_live hf
    cases hut : u.tag_ids with
    | none =>
      have hrun : update_run db bid u = { db with
          blocks := db.blocks.map (fun b => if b.id == bid then
            { applyFieldUpdates block u with tagIds := block.tagIds } else b)
          versions := db.versions
            ++ [snapshotOf db block "Auto-saved version before update"]
          nextVersionId := db.nextVersionId + 1 } := by
        simp [update_run, update_content_block, hf, hut]
      rw [hrun]
      generalize hB : ({ applyFieldUpdates block u with
          tagIds := block.tagIds } : ContentBlock) = B
      have hBid : B.id = bid := by rw [← hB]; exact hid
      have hBdel : B.is_deleted = false := by rw [← hB]; exact hlive
      have hBassoc : B.tagIds = block.tagIds := by rw [← hB]
      have hgid : ∀ x : ContentBlock, (if x.id == bid then B else x).id = x.id := by
        intro x
        by_cases hc : (x.id == bid) = true
        · rw [if_pos hc, hBid]
          exact (beq_iff_eq.mp hc).symm
        · rw [if_neg hc]
      refine ⟨?_, ?_, h.tagsLt, ?_, ?_⟩
      · show ((db.blocks.map (fun b => if b.id == bid then B else b)).map
            (fun b => b.id)).Nodup
        rw [map_blocks_ids _ _ hgid]
        exact h.blocksNodup
      · intro b hb
        obtain ⟨x, hx, hxe⟩ := List.mem_map.mp hb
        have := h.blocksLt x hx
        rw [← hxe, hgid]
        exact this
      · intro b hb i hi
        obtain ⟨x, hx, hxe⟩ := List.mem_map.mp hb
        by_cases hc : (x.id == bid) = true
        · rw [← hxe, if_pos hc, hBassoc] at hi
          exact h.assocExists block hmem i hi
        · rw [← hxe, if_neg hc] at hi
          exact h.assocExists x hx i hi
      · intro t ht
        have hcount := h.counts t ht
        show t.usage_count = ((List.filter
            (fun b => !b.is_deleted && b.tagIds.contains t.id)
            (db.blocks.map (fun b => if b.id == bid then B else b))).length : Int)
        have hlen : ((db.blocks.map (fun x => if x.id == bid then B else x)).filter
              (fun b => !b.is_deleted && b.tagIds.contains t.id)).length
            + (if (!block.is_deleted && block.tagIds.contains t.id) = true then 1 else 0)
          = (db.blocks.filter (fun b => !b.is_deleted && b.tagIds.contains t.id)).length
            + (if (!B.is_deleted && B.tagIds.contains t.id) = true then 1 else 0) :=
          length_filter_set db.blocks _ (fun _ => B) bid block h.blocksNodup hmem hid
        rw [hBdel, hBassoc, hlive] at hlen
        rw [hcount]
        simp only [liveUsage]
        congr 1
        omega
    | some newIds =>
      have hrun : update_run db bid u = { db with
          blocks := db.blocks.map (fun b => if b.id == bid then
            { applyFieldUpdates block u with
              tagIds := (db.tags.filter (fun t => newIds.contains t.id)).map
                (fun t => t.id) } else b)
          tags := db.tags.map (fun t =>
            if (block.tagIds.filter (fun i => !newIds.contains i)).contains t.id then
              { t with usage_count := max 0 (t.usage_count - 1) }
            else if (newIds.filter (fun i => !block.tagIds.contains i)).contains t.id then
              { t with usage_count := t.usage_count + 1 }
            else t)
          versions := db.versions
            ++ [snapshotOf db block "Auto-saved version before update"]
          nextVersionId := db.nextVersionId + 1 } := by
        simp [update_run, update_content_block, hf, hut]
      rw [hrun]
      generalize hB : ({ applyFieldUpdates block u with
          tagIds := (db.tags.filter (fun t => newIds.contains t.id)).map
            (fun t => t.id) } : ContentBlock) = B
      have hBid : B.id = bid := by rw [← hB]; exact hid
      have hBdel : B.is_deleted = false := by rw [← hB]; exact hlive
      have hBassoc : B.tagIds
          = (db.tags.filter (fun t => newIds.contains t.id)).map (fun t => t.id) := by
        rw [← hB]
      have hgid : ∀ x : ContentBlock, (if x.id == bid then B else x).id = x.id := by
        intro x
        by_cases hc : (x.id == bid) = true
        · rw [if_pos hc, hBid]
          exact (beq_iff_eq.mp hc).symm
        · rw [if_neg hc]
      have hfid : ∀ t : Tag,
          ((if (block.tagIds.filter (fun i => !newIds.contains i)).contains t.id then
              ({ t with usage_count := max 0 (t.usage_count - 1) } : Tag)
            else if (newIds.filter (fun i => !block.tagIds.contains i)).contains t.id then
              { t with usage_count := t.usage_count + 1 }
            else t)).id = t.id := by
        intro t
        by_cases h1 : ((block.tagIds.filter (fun i => !newIds.contains i)).contains t.id)
            = true
        · rw [if_pos h1]
        · rw [if_neg h1]
          by_cases h2 : ((newIds.filter (fun i => !block.tagIds.contains i)).contains
              t.id) = true
          · rw [if_pos h2]
          · rw [if_neg h2]
      refine ⟨?_, ?_, ?_, ?_, ?_⟩
      · show ((db.blocks.map (fun b => if b.id == bid then B else b)).map
            (fun b => b.id)).Nodup
        rw [map_blocks_ids _ _ hgid]
        exact h.blocksNodup
      · intro b hb
        obtain ⟨x, hx, hxe⟩ := List.mem_map.mp hb
        have := h.blocksLt x hx
        rw [← hxe, hgid]
        exact this
      · intro t ht
        obtain ⟨t', ht', hte⟩ := List.mem_map.mp ht
        have := h.tagsLt t' ht'
        rw [← hte, hfid]
        exact this
      · intro b hb i hi
        show i ∈ _
        rw [map_tags_ids _ _ hfid]
        obtain ⟨x, hx, hxe⟩ := List.mem_map.mp hb
        by_cases hc : (x.id == bid) = true
        · rw [← hxe, if_pos hc, hBassoc] at hi
          obtain ⟨t', ht', hte⟩ := List.mem_map.mp hi
          exact hte ▸ List.mem_map.mpr ⟨t', (List.mem_filter.mp ht').1, rfl⟩
        · rw [← hxe, if_neg hc] at hi
          exact h.assocExists x hx i hi
      · intro t ht
        obtain ⟨t', ht', hte⟩ := List.mem_map.mp ht
        subst hte
        have hcount := h.counts t' ht'
        rw [hfid]
        show _ = ((List.filter
            (fun b => !b.is_deleted && b.tagIds.contains t'.id)
            (db.blocks.map (fun b => if b.id == bid then B else b))).length : Int)
        have hlen : ((db.blocks.map (fun x => if x.id == bid then B else x)).filter
              (fun b => !b.is_deleted && b.tagIds.contains t'.id)).length
            + (if (!block.is_deleted && block.tagIds.contains t'.id) = true then 1 else 0)
          = (db.blocks.filter (fun b => !b.is_deleted && b.tagIds.contains t'.id)).length
            + (if (!B.is_deleted && B.tagIds.contains t'.id) = true then 1 else 0) :=
          length_filter_set db.blocks _ (fun _ => B) bid block h.blocksNodup hmem hid
        rw [hlive, hBdel] at hlen
        have hBmem : t'.id ∈ B.tagIds ↔ t'.id ∈ newIds := by
          rw [hBassoc]
          exact mem_assoc_iff db.tags newIds t' ht'
        rw [liveUsage] at hcount
        by_cases hold : t'.id ∈ block.tagIds
        · by_cases hnew : t'.id ∈ newIds
          · rw [if_neg (fun hc => ((contains_filter_not _ _ _).mp hc).2 hnew),
              if_neg (fun hc => ((contains_filter_not _ _ _).mp hc).2 hold)]
            rw [contains_true_of_mem _ _ hold,
              contains_true_of_mem _ _ (hBmem.mpr hnew),
              show (if (!false && true) = true then 1 else 0) = 1 from rfl] at hlen
            rw [hcount]
            congr 1
            omega
          · rw [if_pos ((contains_filter_not _ _ _).mpr ⟨hold, hnew⟩)]
            rw [contains_true_of_mem _ _ hold,
              contains_false_of_not_mem _ _ (fun hm => hnew (hBmem.mp hm)),
              show (if (!false && true) = true then 1 else 0) = 1 from rfl,
              show (if (!false && false) = true then 1 else 0) = 0 from rfl] at hlen
            show max 0 (t'.usage_count - 1) = _
            rw [hcount]
            have hL : (db.blocks.filter
                (fun b => !b.is_deleted && b.tagIds.contains t'.id)).length
              = ((db.blocks.map (fun x => if x.id == bid then B else x)).filter
                (fun b => !b.is_deleted && b.tagIds.contains t'.id)).length + 1 := by
              omega
            rw [hL]
            push_cast
            exact max_zero_sub_one _ (Int.natCast_nonneg _)
        · by_cases hnew : t'.id ∈ newIds
          · rw [if_neg (fun hc => hold ((contains_filter_not _ _ _).mp hc).1),
              if_pos ((contains_filter_not _ _ _).mpr ⟨hnew, hold⟩)]
            rw [contains_false_of_not_mem _ _ hold,
              contains_true_of_mem _ _ (hBmem.mpr hnew),
              show (if (!false && true) = true then 1 else 0) = 1 from rfl,
              show (if (!false && false) = true then 1 else 0) = 0 from rfl] at hlen
            show t'.usage_count + 1 = _
            rw [hcount]
            omega
          · rw [if_neg (fun hc => hold ((contains_filter_not _ _ _).mp hc).1),
              if_neg (fun hc => hnew ((contains_filter_not _ _ _).mp hc).1)]
            rw [contains_false_of_not_mem _ _ hold,
              contains_false_of_not_mem _ _ (fun hm => hnew (hBmem.mp hm)),
              show (if (!false && false) = true then 1 else 0) = 0 from rfl] at hlen
            rw [hcount]
            congr 1
            omega

theorem inv_delete (db : DB) (bid : Nat)
    (hgood : ∀ b ∈ db.blocks, b.id = bid → b.is_deleted = false)
    (h : StoreInv db) : StoreInv (delete_run db bid) := by
  cases hf : db.blocks.find? (fun b => b.id == bid) with
  | none =>
    have hrun : delete_run db bid = db := by
      simp [delete_run, delete_content_block, hf]
    rw [hrun]
    exact h
  | some block =>
    obtain ⟨hmem, hid⟩ := of_find?_any hf
    have hlive : block.is_deleted = false := hgood block hmem hid
    have hrun : delete_run db bid = { db with
        tags := db.tags.map (fun t =>
          if block.tagIds.contains t.id then
            { t with usage_count := max 0 (t.usage_count - 1) }
          else t)
        blocks := db.blocks.map (fun b =>
          if b.id == bid then { b with is_deleted := true } else b) } := by
      simp [delete_run, delete_content_block, hf]
    rw [hrun]
    have hgid : ∀ x : ContentBlock,
        (if x.id == bid then ({ x with is_deleted := true } : ContentBlock)
         else x).id = x.id := by
      intro x
      by_cases hc : (x.id == bid) = true
      · rw [if_pos hc]
      · rw [if_neg hc]
    have hfid : ∀ t : Tag,
        ((if block.tagIds.contains t.id then
            ({ t with usage_count := max 0 (t.usage_count - 1) } : Tag)
          else t)).id = t.id := by
      intro t
      by_cases hc : block.tagIds.contains t.id = true
      · rw [if_pos hc]
      · rw [if_neg hc]
    refine ⟨?_, ?_, ?_, ?_, ?_⟩
    · show ((db.blocks.map (fun b =>
          if b.id == bid then { b with is_deleted := true } else b)).map
          (fun b => b.id)).Nodup
      rw [map_blocks_ids _ _ hgid]
      exact h.blocksNodup
    · intro b hb
      obtain ⟨x, hx, hxe⟩ := List.mem_map.mp hb
      have := h.blocksLt x hx
      rw [← hxe, hgid]
      exact this
    · intro t ht
      obtain ⟨t', ht', hte⟩ := List.mem_map.mp ht
      have := h.tagsLt t' ht'
      rw [← hte, hfid]
      exact this
    · intro b hb i hi
      show i ∈ _
      rw [map_tags_ids _ _ hfid]
      obtain ⟨x, hx, hxe⟩ := List.mem_map.mp hb
      by_cases hc : (x.id == bid) = true
      · rw [← hxe, if_pos hc] at hi
        exact h.assocExists x hx i hi
      · rw [← hxe, if_neg hc] at hi
        exact h.assocExists x hx i hi
    · intro t ht
      obtain ⟨t', ht', hte⟩ := List.mem_map.mp ht
      subst hte
      have hcount := h.counts t' ht'
      rw [liveUsage] at hcount
      rw [hfid]
      show _ = ((List.filter
          (fun b => !b.is_deleted && b.tagIds.contains t'.id)
          (db.blocks.map (fun b =>
            if b.id == bid then { b with is_deleted := true } else b))).length : Int)
      have hlen : ((db.blocks.map (fun x => if x.id == bid then
            ({ x with is_deleted := true } : ContentBlock) else x)).filter
            (fun b => !b.is_deleted && b.tagIds.contains t'.id)).length
          + (if (!block.is_deleted && block.tagIds.contains t'.id) = true then 1 else 0)
        = (db.blocks.filter (fun b => !b.is_deleted && b.tagIds.contains t'.id)).length
          + (if (!({ block with is_deleted := true } : ContentBlock).is_deleted
              && ({ block with is_deleted := true } :
                ContentBlock).tagIds.contains t'.id) = true then 1 else 0) :=
        length_filter_set db.blocks _
          (fun x => ({ x with is_deleted := true } : ContentBlock))
          bid block h.blocksNodup hmem hid
      rw [hlive,
        show (!({ block with is_deleted := true } : ContentBlock).is_deleted
            && ({ block with is_deleted := true } :
              ContentBlock).tagIds.contains t'.id) = false from Bool.false_and _]
        at hlen
      rw [show (if false = true then 1 else 0) = 0 from rfl] at hlen
      by_cases hold : t'.id ∈ block.tagIds
      · rw [if_pos (contains_true_of_mem _ _ hold)]
        rw [contains_true_of_mem _ _ hold,
          show (if (!false && true) = true then 1 else 0) = 1 from rfl] at hlen
        show max 0 (t'.usage_count - 1) = _
        rw [hcount]
        have hL : (db.blocks.filter
            (fun b => !b.is_deleted && b.tagIds.contains t'.id)).length
          = ((db.blocks.map (fun x => if x.id == bid then
              ({ x with is_deleted := true } : ContentBlock) else x)).filter
              (fun b => !b.is_deleted && b.tagIds.contains t'.id)).length + 1 := by
          omega
        rw [hL]
        push_cast
        exact max_zero_sub_one _ (Int.natCast_nonneg _)
      · rw [if_neg (fun hc => hold (by simpa using hc))]
        rw [contains_false_of_not_mem _ _ hold,
          show (if (!false && false) = true then 1 else 0) = 0 from rfl] at hlen
        rw [hcount]
        congr 1
        omega

theorem inv_revert (db : DB) (bid vid : Nat)
    (h : StoreInv db) : StoreInv (revert_run db bid vid) := by
  cases hf : db.blocks.find? (fun b => b.id == bid) with
  | none =>
    have hrun : revert_run db bid vid = db := by
      simp [revert_run, revert_to_version, hf]
    rw [hrun]
    exact h
  | some block =>
    obtain ⟨hmem, hid⟩ := of_find?_any hf
    cases hv : db.versions.find?
        (fun v => v.id == vid && v.content_block_id == bid) with
    | none =>
      have hrun : revert_run db bid vid = db := by
        simp [revert_run, revert_to_version, hf, hv]
      rw [hrun]
      exact h
    | some version =>
      have hrun : revert_run db bid vid = { db with
          blocks := db.blocks.map (fun b => if b.id == bid then
            { block with
              title := version.title
              content := version.content
              context_metadata := version.context_metadata } else b)
          versions := db.versions ++ [snapshotOf db block
            ("Auto-saved before reverting to version "
              ++ toString version.version_number)]
          nextVersionId := db.nextVersionId + 1 } := by
        simp [revert_run, revert_to_version, hf, hv]
      rw [hrun]
      generalize hB : ({ block with
          title := version.title
          content := version.content
          context_metadata := version.context_metadata } : ContentBlock) = B
      have hBid : B.id = bid := by rw [← hB]; exact hid
      have hBdel : B.is_deleted = block.is_deleted := by rw [← hB]
      have hBassoc : B.tagIds = block.tagIds := by rw [← hB]
      have hgid : ∀ x : ContentBlock, (if x.id == bid then B else x).id = x.id := by
        intro x
        by_cases hc : (x.id == bid) = true
        · rw [if_pos hc, hBid]
          exact (beq_iff_eq.mp hc).symm
        · rw [if_neg hc]
      refine ⟨?_, ?_, h.tagsLt, ?_, ?_⟩
      · show ((db.blocks.map (fun b => if b.id == bid then B else b)).map
            (fun b => b.id)).Nodup
        rw [map_blocks_ids _ _ hgid]
        exact h.blocksNodup
      · intro b hb
        obtain ⟨x, hx, hxe⟩ := List.mem_map.mp hb
        have := h.blocksLt x hx
        rw [← hxe, hgid]
        exact this
      · intro b hb i hi
        obtain ⟨x, hx, hxe⟩ := List.mem_map.mp hb
        by_cases hc : (x.id == bid) = true
        · rw [← hxe, if_pos hc, hBassoc] at hi
          exact h.assocExists block hmem i hi
        · rw [← hxe, if_neg hc] at hi
          exact h.assocExists x hx i hi
      · intro t ht
        have hcount := h.counts t ht
        rw [liveUsage] at hcount
        show t.usage_count = ((List.filter
            (fun b => !b.is_deleted && b.tagIds.contains t.id)
            (db.blocks.map (fun b => if b.id == bid then B else b))).length : Int)
        have hlen : ((db.blocks.map (fun x => if x.id == bid then B else x)).filter
              (fun b => !b.is_deleted && b.tagIds.contains t.id)).length
            + (if (!block.is_deleted && block.tagIds.contains t.id) = true then 1 else 0)
          = (db.blocks.filter (fun b => !b.is_deleted && b.tagIds.contains t.id)).length
            + (if (!B.is_deleted && B.tagIds.contains t.id) = true then 1 else 0) :=
          length_filter_set db.blocks _ (fun _ => B) bid block h.blocksNodup hmem hid
        rw [hBdel, hBassoc] at hlen
        rw [hcount]
        congr 1
        omega

/-- Every store reachable without double deletion satisfies the full
store invariant; in particular the cached usage counts agree with the
live association counts. -/
theorem good_reachable_inv {db : DB} (h : ReachableNoDoubleDelete db) :
    StoreInv db := by
  induction h with
  | init => exact inv_empty
  | createTag n c cl _ ih => exact inv_create_tag _ n c cl ih
  | createBlock d _ ih => exact inv_create_block _ d ih
  | update bid u _ ih => exact inv_update _ bid u ih
  | delete bid hgood _ ih => exact inv_delete _ bid hgood ih
  | revert bid vid _ ih => exact inv_revert _ bid vid ih

/-! Version numbering: on every reachable store, each block's version
rows are numbered 1, 2, …, k in insertion order. -/

theorem blockVersions_eq (db : DB) (bid : Nat) :
    blockVersions db bid = db.versions.filter (fun v => v.content_block_id == bid) := rfl

theorem canonical_append (vs : List ContentVersion) (v : ContentVersion)
    (h : CanonicalNumbers vs)
    (hn : v.version_number
        = (vs.filter (fun x => x.content_block_id == v.content_block_id)).length + 1) :
    CanonicalNumbers (vs ++ [v]) := by
  intro bid
  by_cases hb : v.content_block_id = bid
  · have hsplit : (vs ++ [v]).filter (fun x => x.content_block_id == bid)
        = vs.filter (fun x => x.content_block_id == bid) ++ [v] := by
      simp [List.filter_append, hb]
    rw [hsplit, List.map_append, h bid, List.length_append]
    simp only [List.map_cons, List.map_nil, List.length_cons, List.length_nil,
      Nat.zero_add]
    rw [List.range'_concat]
    rw [hn, hb]
    simp [Nat.add_comm]
  · have hsplit : (vs ++ [v]).filter (fun x => x.content_block_id == bid)
        = vs.filter (fun x => x.content_block_id == bid) := by
      simp [List.filter_append, hb]
    rw [hsplit]
    exact h bid

theorem create_tag_run_versions (db : DB) (n : String) (c cl : Option String) :
    (create_tag_run db n c cl).versions = db.versions := by
  by_cases hex : db.tags.any (fun t => t.name == n) = true
  · simp [create_tag_run, create_tag, hex]
  · simp [create_tag_run, create_tag, hex]

theorem create_block_versions (db : DB) (d : ContentBlockCreate) :
    ((create_content_block db d).1).versions = db.versions := rfl

theorem delete_run_versions (db : DB) (bid : Nat) :
    (delete_run db bid).versions = db.versions := by
  rw [delete_run, delete_content_block]
  cases hf : db.blocks.find? (fun b => b.id == bid) <;> rfl

theorem reachable_canonical {db : DB} (h : Reachable db) :
    CanonicalNumbers db.versions := by
  induction h with
  | init =>
    intro bid
    rfl
  | createTag n c cl _ ih =>
    rw [create_tag_run_versions]
    exact ih
  | createBlock d _ ih =>
    rw [create_block_versions]
    exact ih
  | update bid u _ ih =>
    rename_i db' _
    rw [update_run]
    cases hf : update_content_block db' bid u with
    | error e => exact ih
    | ok r =>
      revert hf
      rw [update_content_block]
      cases hfind : db'.blocks.find? (fun b => b.id == bid && !b.is_deleted) with
      | none => intro hf; cases hf
      | some block =>
        intro hf
        cases hf
        exact canonical_append _ _ ih rfl
  | delete bid _ ih =>
    rw [delete_run_versions]
    exact ih
  | revert bid vid _ ih =>
    rename_i db' _
    rw [revert_run]
    cases hf : revert_to_version db' bid vid with
    | error e => exact ih
    | ok r =>
      revert hf
      rw [revert_to_version]
      cases hfind : db'.blocks.find? (fun b => b.id == bid) with
      | none => intro hf; cases hf
      | some block =>
        cases hv : db'.versions.find? (fun x => x.id == vid && x.content_block_id == bid) with
        | none => intro hf; cases hf
        | some version =>
          intro hf
          cases hf
          exact canonical_append _ _ ih rfl

theorem foldr_max_init (l : List Nat) (c : Nat) :
    l.foldr max c = max (l.foldr max 0) c := by
  induction l with
  | nil => simp
  | cons x xs ih =>
    simp only [List.foldr_cons, ih]
    rw [Nat.max_assoc]

theorem foldr_max_range' (k : Nat) : (List.range' 1 k).foldr max 0 = k := by
  induction k with
  | zero => rfl
  | succ n ih =>
    rw [List.range'_concat, List.foldr_append]
    simp only [List.foldr_cons, List.foldr_nil]
    rw [foldr_max_init, ih]
    omega

theorem specMax_eq_count (db : DB) (bid : Nat) (hcan : CanonicalNumbers db.versions) :
    specMaxVersionNumber db bid = (blockVersions db bid).length := by
  rw [specMaxVersionNumber, blockVersions_eq, hcan bid]
  exact foldr_max_range' _

end OMFS

namespace OMFS

/-- C9: resolving change `c1` with `accept` on the scenario block —
pending ledger entry `c1` of kind `insert`, body
`<p>Hello <mark data-change-id="c1" data-change-type="insert">world</mark></p>`
— returns the body `<p>Hello world</p>` (marker unwrapped, inner text
kept in place) and the empty ledger: the resolved entry is pruned and
only pending entries remain. -/
theorem resolve_accept_insert_scenario :
    resolve
      [.elem "p" []
        [.text "Hello ",
         .elem "mark" [("data-change-id", "c1"), ("data-change-type", "insert")]
           [.text "world"]]]
      [⟨"c1", "insert", "pending"⟩] ["c1"] "accept"
      = .ok ("<p>Hello world</p>", []) := by
  rfl

/-- C10: the tag listing returns every tag row with `usage_count`
recomputed as the number of non-soft-deleted blocks currently
associated with it (a permutation of the recomputed rows), ordered by
that recomputed count descending. -/
theorem get_tags_recomputed_and_sorted (db : DB) :
    (get_tags db).Perm
        (db.tags.map (fun t => { t with usage_count := (liveUsage db t.id : Int) }))
      ∧ (get_tags db).Pairwise (fun a b => b.usage_count ≤ a.usage_count) := by
  constructor
  · exact List.mergeSort_perm _ _
  · have h := @List.sorted_mergeSort Tag
      (fun a b => decide (b.usage_count ≤ a.usage_count))
      (fun a b c hab hbc => by
        simp only [decide_eq_true_eq] at *
        exact le_trans hbc hab)
      (fun a b => by
        simp only [Bool.or_eq_true, decide_eq_true_eq]
        exact le_total b.usage_count a.usage_count)
      (db.tags.map (fun t => { t with usage_count := (liveUsage db t.id : Int) }))
    exact h.imp (fun hab => of_decide_eq_true hab)

/-- C5: a block update inserts exactly one version row, and the
snapshot's captured title/body/metadata are the looked-up block's
values before any of the incoming field changes are applied — the
snapshot write precedes the field mutation, whatever the update `u`
overwrites. -/
theorem update_snapshot_captures_pre_state (db : DB) (bid : Nat) (u : ContentBlockUpdate)
    (block : ContentBlock)
    (h : db.blocks.find? (fun b => b.id == bid && !b.is_deleted) = some block) :
    ∃ db' blk v, update_content_block db bid u = .ok (db', blk)
      ∧ db'.versions = db.versions ++ [v]
      ∧ v.title = block.title ∧ v.content = block.content
      ∧ v.context_metadata = block.context_metadata := by
  simp only [update_content_block, h]
  exact ⟨_, _, _, rfl, rfl, rfl, rfl, rfl⟩

/-- C4: revert fails with `NotFound` when the version id does not
match a version row of this block; on success it first appends one
snapshot capturing the current state whose description names the
revert target's version number, then overwrites exactly the block's
title, body and metadata with the target version's captured values,
leaving the block's id, soft-delete flag and tag associations (and
every tag row) unchanged. -/
theorem revert_notfound_and_effect (db : DB) (bid vid : Nat) (block : ContentBlock)
    (hb : db.blocks.find? (fun b => b.id == bid) = some block) :
    (db.versions.find? (fun v => v.id == vid && v.content_block_id == bid) = none →
      revert_to_version db bid vid = .error .notFound)
    ∧ (∀ version,
        db.versions.find? (fun v => v.id == vid && v.content_block_id == bid) = some version →
        ∃ db' blk v, revert_to_version db bid vid = .ok (db', blk)
          ∧ db'.versions = db.versions ++ [v]
          ∧ v.title = block.title ∧ v.content = block.content
          ∧ v.context_metadata = block.context_metadata
          ∧ v.change_description =
              "Auto-saved before reverting to version " ++ toString version.version_number
          ∧ blk.title = version.title ∧ blk.content = version.content
          ∧ blk.context_metadata = version.context_metadata
          ∧ blk.id = block.id ∧ blk.tagIds = block.tagIds
          ∧ blk.is_deleted = block.is_deleted
          ∧ db'.tags = db.tags
          ∧ db'.blocks = db.blocks.map (fun b => if b.id == bid then blk else b)) := by
  constructor
  · intro hv
    simp only [revert_to_version, hb, hv]
  · intro version hv
    simp only [revert_to_version, hb, hv]
    exact ⟨_, _, _, rfl, rfl, rfl, rfl, rfl, rfl, rfl, rfl, rfl, rfl, rfl, rfl, rfl, rfl⟩

/-- C8: soft-deleting a block rewrites the tag table so that exactly
the tags associated with the block have `usage_count` decremented by
one clamped at zero (all their other fields kept), flips the block's
soft-delete flag while keeping its tag association list and every
other field, and leaves other blocks, the version table and the
counters untouched. -/
theorem delete_block_effect (db : DB) (bid : Nat) (block : ContentBlock)
    (h : db.blocks.find? (fun b => b.id == bid) = some block) :
    ∃ db', delete_content_block db bid = .ok db'
      ∧ db'.tags = db.tags.map (fun t =>
          if t.id ∈ block.tagIds then { t with usage_count := max 0 (t.usage_count - 1) }
          else t)
      ∧ db'.blocks = db.blocks.map (fun b =>
          if b.id = bid then { b with is_deleted := true } else b)
      ∧ db'.blocks.map (fun b => b.tagIds) = db.blocks.map (fun b => b.tagIds)
      ∧ db'.versions = db.versions
      ∧ db'.nextBlockId = db.nextBlockId ∧ db'.nextTagId = db.nextTagId
      ∧ db'.nextVersionId = db.nextVersionId := by
  simp only [delete_content_block, h]
  refine ⟨_, rfl, ?_, ?_, ?_, rfl, rfl, rfl, rfl⟩
  · apply List.map_congr_left
    intro t _
    by_cases hmem : t.id ∈ block.tagIds
    · simp [hmem]
    · simp [hmem]
  · apply List.map_congr_left
    intro b _
    by_cases hid : b.id = bid
    · simp [hid]
    · simp [hid]
  · simp only [List.map_map]
    apply List.map_congr_left
    intro b _
    by_cases hid : b.id = bid
    · simp [hid, Function.comp]
    · simp [hid, Function.comp]

/-- C7: an update that supplies `tag_ids` rewrites the tag table so
that each tag in the new set minus the old association set has
`usage_count` incremented by one, each tag in the old set minus the
new set has it decremented by one clamped at zero, and every other
tag row is untouched. -/
theorem update_tag_association_delta (db : DB) (bid : Nat) (u : ContentBlockUpdate)
    (newIds : List Nat) (block : ContentBlock)
    (h : db.blocks.find? (fun b => b.id == bid && !b.is_deleted) = some block)
    (ht : u.tag_ids = some newIds) :
    ∃ db' blk, update_content_block db bid u = .ok (db', blk)
      ∧ db'.tags = db.tags.map (fun t =>
          if t.id ∈ block.tagIds ∧ t.id ∉ newIds then
            { t with usage_count := max 0 (t.usage_count - 1) }
          else if t.id ∈ newIds ∧ t.id ∉ block.tagIds then
            { t with usage_count := t.usage_count + 1 }
          else t) := by
  simp only [update_content_block, h, ht]
  refine ⟨_, _, rfl, ?_⟩
  apply List.map_congr_left
  intro t _
  by_cases hrem : t.id ∈ block.tagIds ∧ t.id ∉ newIds
  · rw [if_pos ((contains_filter_not _ _ _).mpr hrem), if_pos hrem]
  · rw [if_neg (fun hc => hrem ((contains_filter_not _ _ _).mp hc)), if_neg hrem]
    by_cases hadd : t.id ∈ newIds ∧ t.id ∉ block.tagIds
    · rw [if_pos ((contains_filter_not _ _ _).mpr hadd), if_pos hadd]
    · rw [if_neg (fun hc => hadd ((contains_filter_not _ _ _).mp hc)), if_neg hadd]

/-- C3 (amended): a soft-deleted block is omitted from every page of
the block listing and reading it by id fails with `NotFound`, but its
version history remains readable: the version endpoint's block lookup
does not filter on the soft-delete flag. -/
theorem soft_deleted_block_visibility (db : DB) (b : ContentBlock)
    (hmem : b ∈ db.blocks) (hdel : b.is_deleted = true)
    (hall : ∀ b' ∈ db.blocks, b'.id = b.id → b'.is_deleted = true) :
    (∀ page limit, b ∉ get_content_blocks db page limit)
    ∧ get_content_block db b.id = .error .notFound
    ∧ ∃ vs, get_content_versions db b.id = .ok vs := by
  refine ⟨?_, ?_, ?_⟩
  · intro page limit hin
    simp only [get_content_blocks] at hin
    have h1 : b ∈ db.blocks.filter (fun x => !x.is_deleted) :=
      List.mem_of_mem_drop (List.mem_of_mem_take hin)
    have := (List.mem_filter.mp h1).2
    simp [hdel] at this
  · have hnone : db.blocks.find? (fun x => x.id == b.id && !x.is_deleted) = none := by
      apply List.find?_eq_none.mpr
      intro x hx
      simp only [Bool.and_eq_true, beq_iff_eq, Bool.not_eq_true', not_and]
      intro hid
      simp [hall x hx hid]
    simp [get_content_block, hnone]
  · have hsome : (db.blocks.find? (fun x => x.id == b.id)).isSome := by
      apply List.find?_isSome.mpr
      exact ⟨b, hmem, by simp⟩
    obtain ⟨blk, hblk⟩ := Option.isSome_iff_exists.mp hsome
    simp only [get_content_versions, hblk]
    exact ⟨_, rfl⟩

/-- C3 counterexample: in `dbDeletedBlock` the only block is
soft-deleted, yet its version history does not read as absent — the
version endpoint succeeds instead of failing with `NotFound`. -/
theorem soft_deleted_versions_readable_cex :
    (∃ b ∈ dbDeletedBlock.blocks, b.is_deleted = true)
    ∧ (get_content_versions dbDeletedBlock 1).isOk = true := by
  decide

/-- C2 counterexample: in the store reached by creating tag 1, two
blocks associated with it and then soft-deleting block 1 twice (each
step a core operation), the tag's cached `usage_count` is 0 while one
associated live block remains. -/
theorem usage_count_drift_cex :
    ∃ t ∈ dbAfterDoubleDelete.tags,
      t.usage_count ≠ (liveUsage dbAfterDoubleDelete t.id : Int) := by
  decide

/-- C6: on every reachable store, the version listing of an existing
block returns the block's versions ordered newest first, their
version numbers being exactly k, k−1, …, 1 — reversed, a strictly
increasing gapless sequence starting at 1. -/
theorem listVersions_descending_gapless (db : DB) (h : Reachable db)
    (bid : Nat) (block : ContentBlock)
    (hb : db.blocks.find? (fun b => b.id == bid) = some block) :
    ∃ vs, get_content_versions db bid = .ok vs
      ∧ vs.map (fun v => v.version_number)
          = (List.range' 1 (blockVersions db bid).length).reverse := by
  have hcan := reachable_canonical h
  refine ⟨(blockVersions db bid).mergeSort
      (fun a b => b.version_number ≤ a.version_number), ?_, ?_⟩
  · simp only [get_content_versions, hb]
  have hl : (blockVersions db bid).map (fun v => v.version_number)
      = List.range' 1 (blockVersions db bid).length := by
    rw [blockVersions_eq]
    exact hcan bid
  have hperm : (((blockVersions db bid).mergeSort
        (fun a b => b.version_number ≤ a.version_number)).map
          (fun v => v.version_number)).Perm
      ((List.range' 1 (blockVersions db bid).length).reverse) := by
    refine ((List.mergeSort_perm _ _).map _).trans ?_
    rw [hl]
    exact (List.reverse_perm _).symm
  have hsorted : List.Sorted (fun a b : Nat => b ≤ a)
      (((blockVersions db bid).mergeSort
        (fun a b => b.version_number ≤ a.version_number)).map
          (fun v => v.version_number)) := by
    have hms := @List.sorted_mergeSort ContentVersion
      (fun a b => decide (b.version_number ≤ a.version_number))
      (fun a b c hab hbc => by
        simp only [decide_eq_true_eq] at *
        exact le_trans hbc hab)
      (fun a b => by
        simp only [Bool.or_eq_true, decide_eq_true_eq]
        exact le_total b.version_number a.version_number)
      (blockVersions db bid)
    rw [List.Sorted, List.pairwise_map]
    exact hms.imp (fun hab => of_decide_eq_true hab)
  have hsorted' : List.Sorted (fun a b : Nat => b ≤ a)
      ((List.range' 1 (blockVersions db bid).length).reverse) := by
    rw [List.Sorted, List.pairwise_reverse]
    exact (List.pairwise_lt_range' 1 _ 1 (by omega)).imp (fun hab => le_of_lt hab)
  haveI : IsAntisymm Nat (fun a b : Nat => b ≤ a) :=
    ⟨fun a b h1 h2 => le_antisymm h2 h1⟩
  exact List.eq_of_perm_of_sorted hperm hsorted hsorted'

/-- C1 (amended): the snapshot taken before a field update and before
a revert is assigned `version_number` equal to the count of the
block's existing version rows plus one; on every store reachable by
the system's own operations the existing numbers are exactly 1…k, so
this coincides with the maximum existing version number plus one
(1 when none exist) and never reuses a previously assigned number —
but on an arbitrary pre-existing version set the assignment derives
from the row count, not from the maximum. -/
theorem snapshot_number_max_plus_one_on_reachable (db : DB) (h : Reachable db) (bid : Nat) :
    (∀ u block, db.blocks.find? (fun b => b.id == bid && !b.is_deleted) = some block →
      ∃ db' blk v, update_content_block db bid u = .ok (db', blk)
        ∧ db'.versions = db.versions ++ [v]
        ∧ v.version_number = specMaxVersionNumber db bid + 1
        ∧ v.version_number ∉ (blockVersions db bid).map (fun x => x.version_number))
    ∧ (∀ vid block version, db.blocks.find? (fun b => b.id == bid) = some block →
        db.versions.find? (fun x => x.id == vid && x.content_block_id == bid) = some version →
        ∃ db' blk v, revert_to_version db bid vid = .ok (db', blk)
          ∧ db'.versions = db.versions ++ [v]
          ∧ v.version_number = specMaxVersionNumber db bid + 1
          ∧ v.version_number ∉ (blockVersions db bid).map (fun x => x.version_number)) := by
  have hcan := reachable_canonical h
  have hmax := specMax_eq_count db bid hcan
  have hnew : (blockVersions db bid).length + 1
      ∉ (blockVersions db bid).map (fun x => x.version_number) := by
    rw [blockVersions_eq, hcan bid, List.mem_range'_1]
    omega
  constructor
  · intro u block hb
    obtain ⟨_, hid, _⟩ := of_find?_live hb
    simp only [update_content_block, hb]
    refine ⟨_, _, _, rfl, rfl, ?_, ?_⟩
    · show (blockVersions db block.id).length + 1 = specMaxVersionNumber db bid + 1
      rw [hid, hmax]
    · show (blockVersions db block.id).length + 1
          ∉ (blockVersions db bid).map (fun x => x.version_number)
      rw [hid]
      exact hnew
  · intro vid block version hb hv
    obtain ⟨_, hid⟩ := of_find?_any hb
    simp only [revert_to_version, hb, hv]
    refine ⟨_, _, _, rfl, rfl, ?_, ?_⟩
    · show (blockVersions db block.id).length + 1 = specMaxVersionNumber db bid + 1
      rw [hid, hmax]
    · show (blockVersions db block.id).length + 1
          ∉ (blockVersions db bid).map (fun x => x.version_number)
      rw [hid]
      exact hnew

/-- C2 (amended): after every sequence of core operations in which no
already-soft-deleted block is soft-deleted again, every tag's cached
`usage_count` equals the number of non-soft-deleted blocks currently
associated with it.  (The delete handler does not reject an already
deleted block, and a repeated soft-delete decrements the counts a
second time — see the counterexample.) -/
theorem usage_count_matches_live_blocks (db : DB) (h : ReachableNoDoubleDelete db)
    (t : Tag) (ht : t ∈ db.tags) :
    t.usage_count = (liveUsage db t.id : Int) :=
  (good_reachable_inv h).counts t ht

/-- Witness for C2: in the store reached by tag create, two block
creates and one soft-delete, the tag's cached count (1) matches the
single remaining live associated block. -/
theorem usage_count_matches_live_blocks_witness :
    (⟨1, "A", Option.none, Option.none, 1⟩ : Tag).usage_count
      = (liveUsage dbAfterDelete 1 : Int) := by
  have h0 := ReachableNoDoubleDelete.init
  have h1 := ReachableNoDoubleDelete.createTag "A" Option.none Option.none h0
  have h2 := ReachableNoDoubleDelete.createBlock ⟨"t1", "c1", "s", Option.none, [1]⟩ h1
  have h3 := ReachableNoDoubleDelete.createBlock ⟨"t2", "c2", "s", Option.none, [1]⟩ h2
  have h4 := ReachableNoDoubleDelete.delete 1 (by decide) h3
  exact usage_count_matches_live_blocks dbAfterDelete h4
    ⟨1, "A", Option.none, Option.none, 1⟩ (by decide)

/-- C1 counterexample: on a store whose block 1 owns a single
pre-existing version numbered 2, the snapshot taken before an update
is assigned `version_number` 2 — the count of existing rows plus one —
reusing the existing number instead of the claimed maximum plus one,
which is 3. -/
theorem version_number_from_count_cex :
    ((update_run dbGapVersion 1 ContentBlockUpdate.none).versions.map
        (fun v => v.version_number)) = [2, 2]
    ∧ specMaxVersionNumber dbGapVersion 1 + 1 = 3 := by
  decide

/-- Reachability of the store with two updates applied to block 1. -/
theorem reachTwoUpdates : Reachable dbTwoUpdates :=
  Reachable.update 1 ⟨some "t1c", .none, .none, .none, .none⟩
    (Reachable.update 1 ⟨some "t1b", .none, .none, .none, .none⟩
      (Reachable.createBlock ⟨"t1", "c1", "s", .none, [1]⟩
        (Reachable.createTag "A" .none .none Reachable.init)))

/-- Witness for C1: on the reachable store with two versions (numbers
1 and 2) the snapshot taken by an update is numbered max + 1 = 3 and
reuses no existing number. -/
theorem snapshot_number_max_plus_one_witness :
    ∃ db' blk v,
      update_content_block dbTwoUpdates 1 ContentBlockUpdate.none = .ok (db', blk)
      ∧ db'.versions = dbTwoUpdates.versions ++ [v]
      ∧ v.version_number = specMaxVersionNumber dbTwoUpdates 1 + 1
      ∧ v.version_number
          ∉ (blockVersions dbTwoUpdates 1).map (fun x => x.version_number) :=
  (snapshot_number_max_plus_one_on_reachable dbTwoUpdates reachTwoUpdates 1).1
    ContentBlockUpdate.none
    ⟨1, "t1c", "c1", "s", .none, [1], false⟩ (by decide)

/-- Witness for C3: the soft-deleted block of `dbDeletedBlock` is
hidden from listing and by-id reads, while its version history reads
back successfully. -/
theorem soft_deleted_block_visibility_witness :
    (∀ page limit,
      (⟨1, "T", "C", "s", Option.none, [], true⟩ : ContentBlock)
        ∉ get_content_blocks dbDeletedBlock page limit)
    ∧ get_content_block dbDeletedBlock
        (⟨1, "T", "C", "s", Option.none, [], true⟩ : ContentBlock).id
        = .error .notFound
    ∧ ∃ vs, get_content_versions dbDeletedBlock
        (⟨1, "T", "C", "s", Option.none, [], true⟩ : ContentBlock).id = .ok vs :=
  soft_deleted_block_visibility dbDeletedBlock
    ⟨1, "T", "C", "s", Option.none, [], true⟩
    (by decide) (by decide) (by decide)

/-- Witness for C4: reverting block 1 of the two-update store to its
version 1 snapshots the current state first and then installs the
captured values, leaving tags untouched. -/
theorem revert_notfound_and_effect_witness :
    (dbTwoUpdates.versions.find?
        (fun v => v.id == 1 && v.content_block_id == 1) = none →
      revert_to_version dbTwoUpdates 1 1 = .error .notFound)
    ∧ (∀ version,
        dbTwoUpdates.versions.find?
          (fun v => v.id == 1 && v.content_block_id == 1) = some version →
        ∃ db' blk v, revert_to_version dbTwoUpdates 1 1 = .ok (db', blk)
          ∧ db'.versions = dbTwoUpdates.versions ++ [v]
          ∧ v.title = (⟨1, "t1c", "c1", "s", .none, [1], false⟩ : ContentBlock).title
          ∧ v.content = (⟨1, "t1c", "c1", "s", .none, [1], false⟩ : ContentBlock).content
          ∧ v.context_metadata
              = (⟨1, "t1c", "c1", "s", .none, [1], false⟩ : ContentBlock).context_metadata
          ∧ v.change_description =
              "Auto-saved before reverting to version " ++ toString version.version_number
          ∧ blk.title = version.title ∧ blk.content = version.content
          ∧ blk.context_metadata = version.context_metadata
          ∧ blk.id = (⟨1, "t1c", "c1", "s", .none, [1], false⟩ : ContentBlock).id
          ∧ blk.tagIds = (⟨1, "t1c", "c1", "s", .none, [1], false⟩ : ContentBlock).tagIds
          ∧ blk.is_deleted
              = (⟨1, "t1c", "c1", "s", .none, [1], false⟩ : ContentBlock).is_deleted
          ∧ db'.tags = dbTwoUpdates.tags
          ∧ db'.blocks = dbTwoUpdates.blocks.map (fun b => if b.id == 1 then blk else b)) :=
  revert_notfound_and_effect dbTwoUpdates 1 1
    ⟨1, "t1c", "c1", "s", .none, [1], false⟩ (by decide)

/-- Witness for C5: updating block 1 of the one-block store with a new
title snapshots the pre-change title, body and metadata. -/
theorem update_snapshot_captures_pre_state_witness :
    ∃ db' blk v,
      update_content_block dbOneBlock 1
        ⟨some "t1b", Option.none, Option.none, Option.none, Option.none⟩
        = .ok (db', blk)
      ∧ db'.versions = dbOneBlock.versions ++ [v]
      ∧ v.title = (⟨1, "t1", "c1", "s", .none, [1], false⟩ : ContentBlock).title
      ∧ v.content = (⟨1, "t1", "c1", "s", .none, [1], false⟩ : ContentBlock).content
      ∧ v.context_metadata
          = (⟨1, "t1", "c1", "s", .none, [1], false⟩ : ContentBlock).context_metadata :=
  update_snapshot_captures_pre_state dbOneBlock 1
    ⟨some "t1b", Option.none, Option.none, Option.none, Option.none⟩
    ⟨1, "t1", "c1", "s", .none, [1], false⟩ (by decide)

/-- Witness for C6: the two-update store's block 1 lists versions
[2, 1] — newest first, gapless from 1. -/
theorem listVersions_descending_gapless_witness :
    ∃ vs, get_content_versions dbTwoUpdates 1 = .ok vs
      ∧ vs.map (fun v => v.version_number)
          = (List.range' 1 (blockVersions dbTwoUpdates 1).length).reverse :=
  listVersions_descending_gapless dbTwoUpdates reachTwoUpdates 1
    ⟨1, "t1c", "c1", "s", .none, [1], false⟩ (by decide)

/-- Witness for C7: updating block 1 of the two-block store with an
empty tag list decrements the removed tag's count and touches no
other tag. -/
theorem update_tag_association_delta_witness :
    ∃ db' blk,
      update_content_block dbTwoBlocks 1
        ⟨Option.none, Option.none, Option.none, Option.none, some []⟩ = .ok (db', blk)
      ∧ db'.tags = dbTwoBlocks.tags.map (fun t =>
          if t.id ∈ (⟨1, "t1", "c1", "s", .none, [1], false⟩ : ContentBlock).tagIds
              ∧ t.id ∉ ([] : List Nat) then
            { t with usage_count := max 0 (t.usage_count - 1) }
          else if t.id ∈ ([] : List Nat)
              ∧ t.id ∉ (⟨1, "t1", "c1", "s", .none, [1], false⟩ : ContentBlock).tagIds then
            { t with usage_count := t.usage_count + 1 }
          else t) :=
  update_tag_association_delta dbTwoBlocks 1
    ⟨Option.none, Option.none, Option.none, Option.none, some []⟩ []
    ⟨1, "t1", "c1", "s", .none, [1], false⟩ (by decide) rfl

/-- Witness for C8: soft-deleting block 1 of the two-block store flips
its flag, decrements tag 1 and leaves everything else unchanged. -/
theorem delete_block_effect_witness :
    ∃ db', delete_content_block dbTwoBlocks 1 = .ok db'
      ∧ db'.tags = dbTwoBlocks.tags.map (fun t =>
          if t.id ∈ (⟨1, "t1", "c1", "s", .none, [1], false⟩ : ContentBlock).tagIds then
            { t with usage_count := max 0 (t.usage_count - 1) }
          else t)
      ∧ db'.blocks = dbTwoBlocks.blocks.map (fun b =>
          if b.id = 1 then { b with is_deleted := true } else b)
      ∧ db'.blocks.map (fun b => b.tagIds) = dbTwoBlocks.blocks.map (fun b => b.tagIds)
      ∧ db'.versions = dbTwoBlocks.versions
      ∧ db'.nextBlockId = dbTwoBlocks.nextBlockId
      ∧ db'.nextTagId = dbTwoBlocks.nextTagId
      ∧ db'.nextVersionId = dbTwoBlocks.nextVersionId :=
  delete_block_effect dbTwoBlocks 1
    ⟨1, "t1", "c1", "s", .none, [1], false⟩ (by decide)

/-- Witness for C10: on the drifted double-delete store the listing
overrides the stale cached count with the recomputed live count. -/
theorem get_tags_recomputed_and_sorted_witness :
    (get_tags dbAfterDoubleDelete).Perm
        (dbAfterDoubleDelete.tags.map (fun t =>
          { t with usage_count := (liveUsage dbAfterDoubleDelete t.id : Int) }))
      ∧ (get_tags dbAfterDoubleDelete).Pairwise
          (fun a b => b.usage_count ≤ a.usage_count) :=
  get_tags_recomputed_and_sorted dbAfterDoubleDelete

end OMFS
